import Mathlib

/-! Verification of the xio crate core: the entry predicates and the filtered
concurrent directory walker of src/lib.rs, and the directory splitter of
src/split.rs. Filesystem paths are modelled as lists of name components and
directory trees as finite trees of named files and directories; the
asynchronous parts are modelled by the order in which the single traversal
task schedules and awaits work. -/

namespace Xio

/-- A filesystem path, as its list of name components. -/
abbrev FsPath := List String

/-- Embedding of is_hidden from src/lib.rs: the entry name starts with a dot
and is neither "." nor "..". Rust reads the first character with a char
pattern, modelled on the underlying character list. Entry names that are not
valid UTF-8 are outside the model; Rust returns false for them. -/
def is_hidden (s : String) : Bool :=
  (match s.data with
   | [] => false
   | c :: _ => c == '.') && s != "." && s != ".."

/-- Embedding of is_git_dir from src/lib.rs: the name is exactly ".git". -/
def is_git_dir (s : String) : Bool := s == ".git"

/-- Embedding of is_target_dir from src/lib.rs: the name is exactly
"target". -/
def is_target_dir (s : String) : Bool := s == "target"

/-- The filter_entry predicate of walk_directory in src/lib.rs: keep an entry
when none of the three exclusion predicates holds for its name. -/
def keepEntry (s : String) : Bool := !is_hidden s && !is_git_dir s && !is_target_dir s

/-- The is_hidden predicate as the specification sentence of claim C4 words
it, with the exception for names beginning with ".tmp"; declared only to be
compared with the is_hidden embedded from the source. -/
def is_hidden_spec_version (s : String) : Bool :=
  (match s.data with
   | [] => false
   | c :: _ => c == '.') && s != "." && s != ".."
    && !(List.isPrefixOf ".tmp".data s.data)

mutual
/-- A directory tree: a regular file or a directory with children. The walker
follows symbolic links, so a link is represented by the tree it expands
to. -/
inductive FsTree where
  | file (name : String)
  | dir (name : String) (children : FsForest)
deriving DecidableEq

/-- A list of sibling trees, as a mutual inductive so that the walker below
is structurally recursive and computable by the kernel. -/
inductive FsForest where
  | nil
  | cons (t : FsTree) (ts : FsForest)
deriving DecidableEq
end

/-- Embedding of the WalkDir traversal with its filter_entry pruning in
src/lib.rs: depth-first pre-order, an entry is yielded only when keep holds
for its name, and a directory failing keep is skipped together with its whole
subtree. The path of an entry is the path prefix of its parent followed by
its own name. -/
def walkForest (keep : String → Bool) : FsForest → FsPath → List FsPath
  | .nil, _ => []
  | .cons (.file n) ts, pfx =>
      (if keep n then [pfx ++ [n]] else []) ++ walkForest keep ts pfx
  | .cons (.dir n cs) ts, pfx =>
      (if keep n then (pfx ++ [n]) :: walkForest keep cs (pfx ++ [n]) else [])
        ++ walkForest keep ts pfx

/-- The characters after the last dot of a list, when some dot occurs. -/
def afterLastDot : List Char → Option (List Char)
  | [] => none
  | c :: rest =>
      match afterLastDot rest with
      | some e => some e
      | none => if c == '.' then some rest else none

/-- Embedding of the Rust extension of a file name: none when the name is
empty or has no dot beyond a leading one, otherwise the portion after the
final dot. The leading character never starts an extension, which encodes
the Rust rule that a name beginning with a dot and holding no other dot has
no extension. -/
def rustExtension (name : String) : Option String :=
  match name.data with
  | [] => none
  | _ :: rest => (afterLastDot rest).map String.mk

/-- The file name of an entry path: its final component. The walker builds
every entry path as a parent prefix followed by the entry name, so the final
component is that name. -/
def entryName (p : FsPath) : String := p.getLastD ""

/-- Embedding of walk_directory from src/lib.rs up to the point where the
handler tasks are spawned: the paths for which the callback is scheduled, in
traversal order. The extension of each kept entry is compared literally with
the extension argument, entries without an extension are skipped, and no
file-type check is made. The root entry is inspected by the same filter as
every other entry, as WalkDir applies filter_entry to the root too. -/
def walk_directory_dispatch (t : FsTree) (pfx : FsPath) (extension : String) : List FsPath :=
  (walkForest keepEntry (.cons t .nil) pfx).filter
    (fun p => rustExtension (entryName p) == some extension)

/-- Embedding of the join loop at the end of walk_directory in src/lib.rs:
handles are awaited in spawn order and the loop returns at the first error.
The first component is the overall outcome, the second the number of handles
awaited before returning; the handles after a failing one are dropped, which
detaches those tasks rather than cancelling or awaiting them. -/
def awaitHandles {E : Type} : List (Except E Unit) → Except E Unit × Nat
  | [] => (.ok (), 0)
  | .error e :: _ => (.error e, 1)
  | .ok _ :: rest =>
      let r := awaitHandles rest
      (r.1, r.2 + 1)

/-- A full walk_directory run: schedule the handler on each matched path,
then await the handles in spawn order. Each handler is modelled by the result
its task eventually produces. -/
def walk_directory_run {E : Type} (t : FsTree) (pfx : FsPath) (extension : String)
    (handler : FsPath → Except E Unit) : Except E Unit × Nat :=
  awaitHandles ((walk_directory_dispatch t pfx extension).map handler)

/-- Embedding of SplitConfig from src/split.rs. The regex patterns travel
with the matcher model instead, so only the fields read by split itself
appear here. -/
structure SplitConfig where
  source_dir : FsPath
  output_dir : Option FsPath
  num_dirs : Nat
  prefix_format : String
  suffix_format : String
deriving DecidableEq

/-- Embedding of the SplitConfig constructor defaults in src/split.rs: no
separate output directory, prefix template "part_" followed by the
placeholder, empty suffix template. -/
def SplitConfig.new (source_dir : FsPath) (num_dirs : Nat) : SplitConfig :=
  ⟨source_dir, none, num_dirs, "part_\x7b\x7d", ""⟩

/-- Embedding of the Rust str replace call of split for its fixed
two-character placeholder pattern, an opening brace directly followed by a
closing brace: every occurrence is replaced, left to right and without
overlap. -/
def replacePlaceholder (rep : List Char) : List Char → List Char
  | c1 :: c2 :: rest =>
      if c1 == '\x7b' && c2 == '\x7d' then rep ++ replacePlaceholder rep rest
      else c1 :: replacePlaceholder rep (c2 :: rest)
  | cs => cs

/-- The name of target directory i: the prefix template with the decimal
index substituted for each placeholder, followed by the suffix template, as
the format call in split builds it. -/
def targetDirName (cfg : SplitConfig) (i : Nat) : String :=
  String.mk (replacePlaceholder (toString i).data cfg.prefix_format.data) ++ cfg.suffix_format

/-- The output root of a split: the configured output directory, defaulting
to the source directory when unset. -/
def SplitConfig.outputRoot (cfg : SplitConfig) : FsPath :=
  cfg.output_dir.getD cfg.source_dir

/-- The path of target directory i: the output root joined with its name. -/
def targetDirPath (cfg : SplitConfig) (i : Nat) : FsPath :=
  cfg.outputRoot ++ [targetDirName cfg i]

/-- Model of create_dir_all over the set of existing directories, as the
external interface contract states it: idempotent, never an error when the
directory already exists. -/
def createDirAll (dirs : List FsPath) (d : FsPath) : List FsPath :=
  if d ∈ dirs then dirs else d :: dirs

/-- Embedding of the directory creation loop of split in src/split.rs: create
each target directory in increasing index order and push its path onto
created_dirs. The first component is the directory set after creation, the
second the created_dirs vector in creation order. -/
def prepareTargets (cfg : SplitConfig) (dirs : List FsPath) : List FsPath × List FsPath :=
  (List.range cfg.num_dirs).foldl
    (fun acc i => (createDirAll acc.1 (targetDirPath cfg i), acc.2 ++ [targetDirPath cfg i]))
    (dirs, [])

/-- The file name of a member path, as Path file_name yields it: the final
component, or none for an empty path or a final parent-directory marker.
The unwrap in the copy loop of split panics exactly when this is none. -/
def fileName (p : FsPath) : Option String :=
  match p.getLast? with
  | none => none
  | some s => if s == ".." then none else some s

/-- The outcome of the distribution loop of split: the performed copies on
success, or one of the two panics the loop can hit, indexing created_dirs out
of bounds or unwrapping a missing file name. I/O failures of the copy calls
abort the phase with an error in the source and are outside this model, which
tracks the success path and the panics. -/
inductive SplitOutcome where
  | ok (created : List FsPath) (copies : List (FsPath × FsPath))
  | panicIndexOutOfBounds
  | panicNoFileName
deriving DecidableEq

/-- The copies for one group into its target directory: every member is
copied to the target directory joined with the member file name; a missing
file name is the unwrap panic of the copy loop. -/
def copyGroup (target : FsPath) (files : List FsPath) : Option (List (FsPath × FsPath)) :=
  files.mapM (fun f => (fileName f).map (fun n => (f, target ++ [n])))

/-- Embedding of the distribution loop of split in src/split.rs: iterate the
groups, copy each group into created_dirs at current_dir, then advance
current_dir by one modulo num_dirs. The index lookup happens before the
modulo step, as in the source, so with an empty created_dirs the loop panics
on indexing before any remainder by zero is taken. -/
def distributeGroups (created : List FsPath) (numDirs : Nat) :
    List (List FsPath) → Nat → SplitOutcome
  | [], _ => .ok created []
  | g :: rest, cur =>
      match created.get? cur with
      | none => .panicIndexOutOfBounds
      | some target =>
          match copyGroup target g with
          | none => .panicNoFileName
          | some cps =>
              match distributeGroups created numDirs rest ((cur + 1) % numDirs) with
              | .ok c more => .ok c (cps ++ more)
              | out => out

/-- Embedding of DirectorySplitter split from src/split.rs after discovery:
given the finalized file-group table in its iteration order and the set of
directories existing before the call, create the target directories and then
distribute the groups. Discovery is modelled separately by find_files since
its result depends on the matcher, and the HashMap iteration order is
arbitrary, so the table is taken as a list of groups in any order. -/
def split (cfg : SplitConfig) (groups : List (List FsPath)) (dirs : List FsPath) :
    SplitOutcome × List FsPath :=
  let prepared := prepareTargets cfg dirs
  (distributeGroups prepared.2 cfg.num_dirs groups 0, prepared.1)

/-- The round-robin description of a successful distribution: the first group
goes to the directory at index cur, each member copied there under its file
name, and the index advances by one modulo numDirs for the next group. -/
def roundRobinAssignment (created : List FsPath) (numDirs : Nat) :
    List (List FsPath) → Nat → List (FsPath × FsPath)
  | [], _ => []
  | g :: rest, cur =>
      g.map (fun f => (f, created.getD cur [] ++ [(fileName f).getD ""]))
        ++ roundRobinAssignment created numDirs rest ((cur + 1) % numDirs)

/-- Insert into the group table what the HashMap entry call followed by the
pushes performs in find_files: extend the group of an existing key, or add a
new group for a new key. -/
def insertGroup : List (FsPath × List FsPath) → FsPath → List FsPath → List (FsPath × List FsPath)
  | [], key, vals => [(key, vals)]
  | (k, vs) :: rest, key, vals =>
      if k = key then (k, vs ++ vals) :: rest
      else (k, vs) :: insertGroup rest key vals

/-- Embedding of find_files from src/split.rs: every dispatched path accepted
by the matcher becomes a key whose group receives the path itself followed by
its accompanying files. The dispatched list stands for the paths handed to
the concurrently dispatched handlers, in the order in which their critical
sections acquired the table lock; each handler mutates the table inside one
critical section, so every interleaving is some ordering of this list, and
the theorems below quantify over the list. -/
def find_files (isMatch : FsPath → Bool) (accompanying : FsPath → List FsPath)
    (dispatched : List FsPath) : List (FsPath × List FsPath) :=
  dispatched.foldl
    (fun groups p => if isMatch p then insertGroup groups p (p :: accompanying p) else groups)
    []

/-- The string form of a path, components joined by separators, standing for
the full path string the regex patterns are applied to. -/
def pathString (p : FsPath) : String := String.intercalate "/" p

/-- Embedding of RegexFileMatcher find_accompanying_files from src/split.rs:
with no patterns the result is empty, otherwise every file of the directory
of the matched path whose full path string matches some pattern is included
once, the inner break preventing a second inclusion by a later pattern. Each
regex is modelled as a predicate on the path string. The directory listing is
a parameter and includes the matched file itself, since read_dir lists it
like any other sibling. -/
def find_accompanying_files (patterns : Option (List (String → Bool)))
    (dirFiles : List FsPath) : List FsPath :=
  match patterns with
  | none => []
  | some pats => dirFiles.filter (fun f => pats.any (fun pat => pat (pathString f)))

/-- The error of a failed directory removal: the directory was not found. -/
inductive CleanupError where
  | notFound (dir : FsPath)
deriving DecidableEq

/-- Model of remove_dir_all over the set of existing directories: a not-found
error when the directory does not exist, otherwise the directory and every
directory under it disappear. -/
def removeDirAll (state : List FsPath) (d : FsPath) : Except CleanupError (List FsPath) :=
  if d ∈ state then .ok (state.filter (fun p => !(List.isPrefixOf d p)))
  else .error (.notFound d)

/-- Embedding of cleanup from src/split.rs: remove every directory of the
list recursively, propagating the first failure. The concurrent try_join_all
is modelled by performing the removals in list order; under true concurrency
the surfacing failure is the first to complete, but whether some failure
surfaces does not depend on the order. -/
def cleanup (dirs : List FsPath) (state : List FsPath) : Except CleanupError (List FsPath) :=
  match dirs with
  | [] => .ok state
  | d :: rest =>
      match removeDirAll state d with
      | .ok state2 => cleanup rest state2
      | .error e => .error e

end Xio

namespace Xio

/-- C4, counterexample: the code treats a name beginning with ".tmp" as
hidden, while the predicate the claim states does not, so the claimed
equivalence fails at the name ".tmp_upload". -/
theorem is_hidden_tmp_counterexample :
    is_hidden ".tmp_upload" = true ∧ is_hidden_spec_version ".tmp_upload" = false := by
  decide

/-- C4, amended: is_hidden holds exactly when the name starts with a dot and
is neither "." nor ".."; the source has no exception for names beginning with
".tmp". -/
theorem is_hidden_iff (s : String) :
    is_hidden s = true ↔ s.data.head? = some '.' ∧ s ≠ "." ∧ s ≠ ".." := by
  unfold is_hidden
  cases h : s.data with
  | nil => simp [h]
  | cons c rest => simp [h, Bool.and_eq_true, bne_iff_ne, beq_iff_eq, and_assoc]

/-- C1: walk_directory does not implement the wildcard extension. In a src
directory holding the regular files "a.log" and "b", a walk with the star
extension schedules no handler at all, even though a walk for the literal
extension "log" shows "a.log" is visible and unpruned, and the only entries a
star walk dispatches are those whose literal extension is the star
character. -/
theorem walk_directory_wildcard_eval :
    walk_directory_dispatch
        (.dir "src" (.cons (.file "a.log") (.cons (.file "b") .nil))) [] "*" = [] ∧
    walk_directory_dispatch
        (.dir "src" (.cons (.file "a.log") (.cons (.file "b") .nil))) [] "log"
      = [["src", "a.log"]] ∧
    walk_directory_dispatch (.dir "src" (.cons (.file "c.*") .nil)) [] "*"
      = [["src", "c.*"]] := by
  decide

end Xio

namespace Xio

/-- C2, counterexample: with three matched files and the handler failing on
the second, the run returns the failure after awaiting only two of the three
scheduled handles, so not every scheduled unit is awaited before the failure
is returned to the caller. -/
theorem walk_directory_join_counterexample :
    (walk_directory_run
        (.dir "src" (.cons (.file "a.txt") (.cons (.file "b.txt") (.cons (.file "c.txt") .nil))))
        [] "txt"
        (fun p => if p = ["src", "b.txt"] then .error "boom" else .ok ())).1
      = Except.error "boom" ∧
    (walk_directory_run
        (.dir "src" (.cons (.file "a.txt") (.cons (.file "b.txt") (.cons (.file "c.txt") .nil))))
        [] "txt"
        (fun p => if p = ["src", "b.txt"] then .error "boom" else .ok ())).2 = 2 ∧
    (walk_directory_dispatch
        (.dir "src" (.cons (.file "a.txt") (.cons (.file "b.txt") (.cons (.file "c.txt") .nil))))
        [] "txt").length = 3 :=
  ⟨rfl, rfl, rfl⟩

/-- Helper: the join loop on an error outcome: a first failing handle exists,
all earlier handles succeeded, and exactly the handles up to and including
the failing one were awaited. -/
theorem awaitHandles_error_spec {E : Type} (results : List (Except E Unit)) (e : E)
    (h : (awaitHandles results).1 = .error e) :
    ∃ i, i < results.length ∧ results.getD i (.ok ()) = .error e ∧
      (∀ j, j < i → results.getD j (.ok ()) = .ok ()) ∧
      (awaitHandles results).2 = i + 1 := by
  induction results with
  | nil => simp [awaitHandles] at h
  | cons r rest ih =>
    cases r with
    | error e2 =>
      have he : e2 = e := by simpa [awaitHandles] using h
      subst he
      exact ⟨0, by simp, by simp, fun j hj => absurd hj (Nat.not_lt_zero j),
        by simp [awaitHandles]⟩
    | ok u =>
      cases u
      have h2 : (awaitHandles rest).1 = .error e := by simpa [awaitHandles] using h
      obtain ⟨i, hi, hget, hprev, hcount⟩ := ih h2
      refine ⟨i + 1, by simpa using Nat.succ_lt_succ hi, by simpa using hget, ?_, ?_⟩
      · intro j hj
        cases j with
        | zero => simp
        | succ j2 => simpa using hprev j2 (by omega)
      · simp [awaitHandles, hcount]

/-- C2, amended: when some handler fails, walk_directory returns the failure
of the earliest scheduled failing handler; the join loop awaits the handles
in spawn order and stops at that first failure, so only the units up to and
including it are awaited before the error is returned, while later units are
left running detached, neither awaited nor cancelled. -/
theorem walk_directory_first_error {E : Type} (t : FsTree) (pfx : FsPath) (extension : String)
    (handler : FsPath → Except E Unit) (e : E)
    (h : (walk_directory_run t pfx extension handler).1 = .error e) :
    ∃ i, i < (walk_directory_dispatch t pfx extension).length ∧
      handler ((walk_directory_dispatch t pfx extension).getD i []) = .error e ∧
      (∀ j, j < i → handler ((walk_directory_dispatch t pfx extension).getD j []) = .ok ()) ∧
      (walk_directory_run t pfx extension handler).2 = i + 1 := by
  obtain ⟨i, hi, hget, hprev, hcount⟩ :=
    awaitHandles_error_spec ((walk_directory_dispatch t pfx extension).map handler) e h
  rw [List.length_map] at hi
  refine ⟨i, hi, ?_, ?_, hcount⟩
  · rw [List.getD_eq_getElem?_getD, List.getElem?_map, List.getElem?_eq_getElem hi] at hget
    simpa [List.getD_eq_getElem?_getD, List.getElem?_eq_getElem hi] using hget
  · intro j hj
    have hj2 : j < (walk_directory_dispatch t pfx extension).length := lt_trans hj hi
    have hok := hprev j hj
    rw [List.getD_eq_getElem?_getD, List.getElem?_map, List.getElem?_eq_getElem hj2] at hok
    simpa [List.getD_eq_getElem?_getD, List.getElem?_eq_getElem hj2] using hok

/-- C2, witness for the amended theorem: instantiated at a concrete run over
three text files whose handler fails on the second. -/
theorem walk_directory_first_error_witness :
    ∃ i, i < (walk_directory_dispatch
        (.dir "src" (.cons (.file "a.txt") (.cons (.file "b.txt") (.cons (.file "c.txt") .nil))))
        [] "txt").length ∧
      (fun (p : FsPath) => if p = ["src", "b.txt"] then (Except.error "boom" : Except String Unit)
          else .ok ())
        ((walk_directory_dispatch
            (.dir "src" (.cons (.file "a.txt") (.cons (.file "b.txt") (.cons (.file "c.txt") .nil))))
            [] "txt").getD i []) = .error "boom" ∧
      (∀ j, j < i →
        (fun (p : FsPath) => if p = ["src", "b.txt"] then (Except.error "boom" : Except String Unit)
            else .ok ())
          ((walk_directory_dispatch
              (.dir "src" (.cons (.file "a.txt") (.cons (.file "b.txt") (.cons (.file "c.txt") .nil))))
              [] "txt").getD j []) = .ok ()) ∧
      (walk_directory_run
        (.dir "src" (.cons (.file "a.txt") (.cons (.file "b.txt") (.cons (.file "c.txt") .nil))))
        [] "txt"
        (fun p => if p = ["src", "b.txt"] then .error "boom" else .ok ())).2 = i + 1 :=
  walk_directory_first_error
    (.dir "src" (.cons (.file "a.txt") (.cons (.file "b.txt") (.cons (.file "c.txt") .nil))))
    [] "txt" (fun p => if p = ["src", "b.txt"] then .error "boom" else .ok ()) "boom" rfl

/-- Helper: every entry the pruning walk yields lies strictly below the walk
prefix and every name component on the way down from the walk root satisfies
the keep predicate. -/
theorem walkForest_mem_keep (keep : String → Bool) (ts : FsForest) (pfx : FsPath) :
    ∀ p ∈ walkForest keep ts pfx, ∃ q, p = pfx ++ q ∧ q ≠ [] ∧ ∀ c ∈ q, keep c = true := by
  induction ts, pfx using walkForest.induct keep with
  | case1 pfx => simp [walkForest]
  | case2 n ts pfx ih =>
    intro p hp
    rw [walkForest] at hp
    rcases List.mem_append.mp hp with h1 | h2
    · by_cases hk : keep n
      · rw [if_pos hk] at h1
        have hpe : p = pfx ++ [n] := by simpa using h1
        exact ⟨[n], hpe, by simp, by simpa using hk⟩
      · rw [if_neg hk] at h1
        simp at h1
    · exact ih p h2
  | case3 n cs ts pfx ih1 ih2 =>
    intro p hp
    rw [walkForest] at hp
    rcases List.mem_append.mp hp with h1 | h2
    · by_cases hk : keep n
      · rw [if_pos hk] at h1
        rcases List.mem_cons.mp h1 with h3 | h4
        · exact ⟨[n], h3, by simp, by simpa using hk⟩
        · obtain ⟨q, hq, hne, hkeep⟩ := ih1 p h4
          refine ⟨n :: q, by simpa [List.append_assoc] using hq, by simp, ?_⟩
          intro c hc
          rcases List.mem_cons.mp hc with rfl | hcq
          · exact hk
          · exact hkeep c hcq
      · rw [if_neg hk] at h1
        simp at h1
    · exact ih2 p h2

/-- C9: no dispatched path lies inside a pruned subtree: every name component
of a dispatched path below the walk prefix, the walk root included, fails
is_hidden, is_git_dir and is_target_dir, so a subtree whose root entry
satisfies one of the three predicates contributes no handler invocation at
all. -/
theorem walk_directory_prunes_subtrees (t : FsTree) (pfx : FsPath) (extension : String)
    (p : FsPath) (hp : p ∈ walk_directory_dispatch t pfx extension) :
    ∀ c ∈ p.drop pfx.length,
      is_hidden c = false ∧ is_git_dir c = false ∧ is_target_dir c = false := by
  have hp2 : p ∈ walkForest keepEntry (.cons t .nil) pfx := List.mem_of_mem_filter hp
  obtain ⟨q, hpq, hne, hkeep⟩ := walkForest_mem_keep keepEntry (.cons t .nil) pfx p hp2
  subst hpq
  intro c hc
  rw [List.drop_left] at hc
  have hk := hkeep c hc
  simp only [keepEntry, Bool.and_eq_true, Bool.not_eq_true'] at hk
  exact ⟨hk.1.1, hk.1.2, hk.2⟩

/-- C9, witness: the pruning theorem applied to a concrete walk of one text
file under a src directory, read off at the file name component of the one
dispatched path. -/
theorem walk_directory_prunes_subtrees_witness :
    is_hidden "a.txt" = false ∧ is_git_dir "a.txt" = false ∧ is_target_dir "a.txt" = false :=
  walk_directory_prunes_subtrees (.dir "src" (.cons (.file "a.txt") .nil)) [] "txt"
    ["src", "a.txt"] (by decide) "a.txt" (by decide)

end Xio

namespace Xio

/-- C5, counterexample: two files whose literal extension is the star
character are both matched; with a catch-all accompanying pattern, the
accompanying scan returns the whole directory listing, so the first file
appears twice inside its own group and both files appear in both groups,
refuting the claimed no-duplication invariant of the table after Discover. -/
theorem find_files_duplicate_counterexample :
    (find_files (fun _ => true)
        (fun _ => find_accompanying_files (some [fun _ => true])
          [["data", "a.*"], ["data", "b.*"]])
        (walk_directory_dispatch
          (.dir "data" (.cons (.file "a.*") (.cons (.file "b.*") .nil))) [] "*"))
      = [(["data", "a.*"], [["data", "a.*"], ["data", "a.*"], ["data", "b.*"]]),
         (["data", "b.*"], [["data", "b.*"], ["data", "a.*"], ["data", "b.*"]])] ∧
    List.count (["data", "a.*"] : FsPath)
      [["data", "a.*"], ["data", "a.*"], ["data", "b.*"]] = 2 := by
  decide

/-- Helper: inserting a key absent from the table appends a new group at the
end. -/
theorem insertGroup_not_mem (gs : List (FsPath × List FsPath)) (key : FsPath)
    (vals : List FsPath) (h : key ∉ gs.map Prod.fst) :
    insertGroup gs key vals = gs ++ [(key, vals)] := by
  induction gs with
  | nil => rfl
  | cons g rest ih =>
    obtain ⟨k, vs⟩ := g
    simp only [List.map_cons, List.mem_cons] at h
    push_neg at h
    rw [insertGroup, if_neg (by exact fun hkk => h.1 hkk.symm), ih h.2]
    simp

/-- Helper: the discovery fold over paths none of which collides with the
accumulator keys appends one fresh group per matched path. -/
theorem find_files_loop (isMatch : FsPath → Bool) (accompanying : FsPath → List FsPath) :
    ∀ (l : List FsPath) (acc : List (FsPath × List FsPath)),
      (∀ p ∈ l, isMatch p = true → p ∉ acc.map Prod.fst) →
      (l.filter isMatch).Nodup →
      l.foldl
          (fun groups p =>
            if isMatch p then insertGroup groups p (p :: accompanying p) else groups)
          acc
        = acc ++ (l.filter isMatch).map (fun p => (p, p :: accompanying p)) := by
  intro l
  induction l with
  | nil => intro acc _ _; simp
  | cons p rest ih =>
    intro acc hfresh hnd
    by_cases hm : isMatch p
    · have hstep : insertGroup acc p (p :: accompanying p) = acc ++ [(p, p :: accompanying p)] :=
        insertGroup_not_mem acc p _ (hfresh p (List.mem_cons_self p rest) hm)
      rw [List.filter_cons_of_pos hm] at hnd
      have hv : p ∉ rest.filter isMatch := (List.nodup_cons.mp hnd).1
      have hnd2 : (rest.filter isMatch).Nodup := (List.nodup_cons.mp hnd).2
      have hfresh2 : ∀ p2 ∈ rest, isMatch p2 = true →
          p2 ∉ (acc ++ [(p, p :: accompanying p)]).map Prod.fst := by
        intro p2 hp2 hm2
        rw [List.map_append]
        simp only [List.mem_append, List.map_cons, List.map_nil, List.mem_singleton]
        rintro (hin | hin)
        · exact hfresh p2 (List.mem_cons_of_mem p hp2) hm2 hin
        · subst hin
          exact hv (List.mem_filter.mpr ⟨hp2, hm2⟩)
      calc (p :: rest).foldl
            (fun groups q =>
              if isMatch q then insertGroup groups q (q :: accompanying q) else groups)
            acc
          = rest.foldl
              (fun groups q =>
                if isMatch q then insertGroup groups q (q :: accompanying q) else groups)
              (acc ++ [(p, p :: accompanying p)]) := by
            rw [List.foldl_cons, if_pos hm, hstep]
        _ = acc ++ [(p, p :: accompanying p)]
              ++ (rest.filter isMatch).map (fun q => (q, q :: accompanying q)) :=
            ih _ hfresh2 hnd2
        _ = acc ++ ((p :: rest).filter isMatch).map (fun q => (q, q :: accompanying q)) := by
            rw [List.filter_cons_of_pos hm, List.map_cons, List.append_assoc]
            rfl
    · rw [List.foldl_cons, if_neg hm, List.filter_cons_of_neg hm]
      rw [List.filter_cons_of_neg hm] at hnd
      exact ih acc (fun p2 hp2 => hfresh p2 (List.mem_cons_of_mem p hp2)) hnd

/-- C5, amended: when the dispatched paths are distinct, the table after
Discover holds exactly one group per matched representative, in insertion
order, each group being the representative followed by its accompanying
files; but a path may well occur in several groups or twice inside one
group, since the accompanying scan excludes neither the representative
itself nor the members of other groups. -/
theorem find_files_table_spec (isMatch : FsPath → Bool) (accompanying : FsPath → List FsPath)
    (dispatched : List FsPath) (hnd : dispatched.Nodup) :
    find_files isMatch accompanying dispatched
      = (dispatched.filter isMatch).map (fun p => (p, p :: accompanying p)) ∧
    (find_files isMatch accompanying dispatched).map Prod.fst = dispatched.filter isMatch ∧
    ((find_files isMatch accompanying dispatched).map Prod.fst).Nodup := by
  have heq : find_files isMatch accompanying dispatched
      = (dispatched.filter isMatch).map (fun p => (p, p :: accompanying p)) := by
    have := find_files_loop isMatch accompanying dispatched []
      (by intro p _ _; simp) (hnd.filter isMatch)
    simpa [find_files] using this
  have hkeys : (find_files isMatch accompanying dispatched).map Prod.fst
      = dispatched.filter isMatch := by
    have hcomp : Prod.fst ∘ (fun p : FsPath => (p, p :: accompanying p)) = id := rfl
    rw [heq, List.map_map, hcomp, List.map_id]
  exact ⟨heq, hkeys, by rw [hkeys]; exact hnd.filter isMatch⟩

/-- C5, witness for the amended theorem at a concrete discovery run with two
distinct dispatched paths, an accept-all matcher and no accompanying
files. -/
theorem find_files_table_spec_witness :
    find_files (fun _ => true) (fun _ => []) [["a"], ["b"]]
      = (([["a"], ["b"]] : List FsPath).filter (fun _ => true)).map (fun p => (p, p :: []))
    ∧ (find_files (fun _ => true) (fun _ => []) [["a"], ["b"]]).map Prod.fst
      = ([["a"], ["b"]] : List FsPath).filter (fun _ => true)
    ∧ ((find_files (fun _ => true) (fun _ => []) [["a"], ["b"]]).map Prod.fst).Nodup :=
  find_files_table_spec (fun _ => true) (fun _ => []) [["a"], ["b"]] (by decide)

end Xio

namespace Xio

/-- Helper: when every member has a file name, the copy step of a group
succeeds and produces one copy per member into the target directory. -/
theorem copyGroup_eq (target : FsPath) (files : List FsPath)
    (hf : ∀ f ∈ files, (fileName f).isSome) :
    copyGroup target files
      = some (files.map (fun f => (f, target ++ [(fileName f).getD ""]))) := by
  induction files with
  | nil => rfl
  | cons f rest ih =>
    obtain ⟨n, hn⟩ := Option.isSome_iff_exists.mp (hf f (List.mem_cons_self f rest))
    have hr := ih (fun g hg => hf g (List.mem_cons_of_mem f hg))
    simp only [copyGroup] at hr ⊢
    rw [List.mapM_cons, hn, hr]
    simp [hn]

/-- Helper: with a created list of length numDirs at least one and a running
index below numDirs, the distribution loop succeeds and performs exactly the
round-robin assignment. -/
theorem distributeGroups_ok (created : List FsPath) (k : Nat) (hk : 0 < k)
    (hlen : created.length = k) :
    ∀ (groups : List (List FsPath)) (cur : Nat), cur < k →
      (∀ g ∈ groups, ∀ f ∈ g, (fileName f).isSome) →
      distributeGroups created k groups cur
        = .ok created (roundRobinAssignment created k groups cur) := by
  intro groups
  induction groups with
  | nil => intro cur _ _; rfl
  | cons g rest ih =>
    intro cur hcur hf
    have hcl : cur < created.length := by omega
    have hget : created.get? cur = some (created.getD cur []) := by
      rw [List.get?_eq_getElem?, List.getElem?_eq_getElem hcl, List.getD_eq_getElem?_getD,
        List.getElem?_eq_getElem hcl]
      rfl
    have hih := ih ((cur + 1) % k) (Nat.mod_lt _ hk)
      (fun g2 hg2 => hf g2 (List.mem_cons_of_mem g hg2))
    simp only [distributeGroups, hget, copyGroup_eq _ _ (hf g (List.mem_cons_self g rest)),
      hih, roundRobinAssignment]

/-- Helper: under the same bounds, the member f of the group at position j of
the table is copied into the created directory at index cur plus j modulo
numDirs. -/
theorem roundRobinAssignment_mem (created : List FsPath) (k : Nat) (hk : 0 < k) :
    ∀ (groups : List (List FsPath)) (cur : Nat), cur < k →
      ∀ j, j < groups.length → ∀ f ∈ groups.getD j [],
        (f, created.getD ((cur + j) % k) [] ++ [(fileName f).getD ""])
          ∈ roundRobinAssignment created k groups cur := by
  intro groups
  induction groups with
  | nil => intro cur _ j hj; simp at hj
  | cons g rest ih =>
    intro cur hcur j hj f hf
    cases j with
    | zero =>
      rw [roundRobinAssignment]
      apply List.mem_append_left
      have hc : (cur + 0) % k = cur := by
        rw [Nat.add_zero]; exact Nat.mod_eq_of_lt hcur
      rw [hc]
      exact List.mem_map.mpr ⟨f, by simpa using hf, rfl⟩
    | succ j2 =>
      rw [roundRobinAssignment]
      apply List.mem_append_right
      have hj2 : j2 < rest.length := by simpa using Nat.lt_of_succ_lt_succ hj
      have hmem := ih ((cur + 1) % k) (Nat.mod_lt _ hk) j2 hj2 f (by simpa using hf)
      have hmod : ((cur + 1) % k + j2) % k = (cur + (j2 + 1)) % k := by
        rw [Nat.mod_add_mod]
        congr 1
        omega
      rw [hmod] at hmem
      exact hmem

/-- Helper: among the first g naturals, the count of those congruent to i
modulo k is the quotient of g by k, plus one when i is below the remainder. -/
theorem countP_range_mod (k : Nat) (hk : 0 < k) (i : Nat) (hi : i < k) :
    ∀ g, (List.range g).countP (fun j => j % k == i)
      = g / k + (if i < g % k then 1 else 0) := by
  intro g
  induction g with
  | zero => simp [Nat.zero_div]
  | succ g ihg =>
    have hr : g % k < k := Nat.mod_lt g hk
    have hone : List.countP (fun j => j % k == i) [g] = if g % k = i then 1 else 0 := by
      by_cases h : g % k = i
      · simp [List.countP_cons, h]
      · simp [List.countP_cons, h]
    rw [List.range_succ, List.countP_append, ihg, hone]
    have hdm := Nat.div_add_mod g k
    by_cases hc : g % k + 1 = k
    · have hmul : k * (g / k + 1) = k * (g / k) + k := by ring
      have h2 : g + 1 = k * (g / k + 1) := by omega
      have hm1 : (g + 1) % k = 0 := by rw [h2, Nat.mul_mod_right]
      have hd1 : (g + 1) / k = g / k + 1 := by rw [h2, Nat.mul_div_cancel_left _ hk]
      rw [hm1, hd1]
      clear hdm hmul h2 ihg hone
      split_ifs <;> omega
    · have hlt : g % k + 1 < k := by omega
      have h2 : g + 1 = k * (g / k) + (g % k + 1) := by omega
      have hm1 : (g + 1) % k = g % k + 1 := by
        rw [h2, Nat.mul_add_mod, Nat.mod_eq_of_lt hlt]
      have hd1 : (g + 1) / k = g / k := by
        rw [h2, Nat.mul_add_div hk, Nat.div_eq_of_lt hlt, Nat.add_zero]
      rw [hm1, hd1]
      clear hdm h2 ihg hone
      split_ifs <;> omega

/-- Helper: every directory index receives the floor or the ceiling of g over
k groups under the round-robin assignment of group j to index j modulo k. -/
theorem balance_floor_ceil (k : Nat) (hk : 0 < k) (g i : Nat) (hi : i < k) :
    (List.range g).countP (fun j => j % k == i) = g / k ∨
    (List.range g).countP (fun j => j % k == i) = (g + k - 1) / k := by
  rw [countP_range_mod k hk i hi g]
  by_cases hc : i < g % k
  · right
    have hr : g % k < k := Nat.mod_lt g hk
    have hsm : g % k - 1 < k := by omega
    have hdm := Nat.div_add_mod g k
    have hmul : k * (g / k + 1) = k * (g / k) + k := by ring
    have h2 : g + k - 1 = k * (g / k + 1) + (g % k - 1) := by omega
    rw [if_pos hc, h2, Nat.mul_add_div hk, Nat.div_eq_of_lt hsm, Nat.add_zero]
  · left
    rw [if_neg hc]
    exact Nat.add_zero _

/-- Helper: the created_dirs vector built by the preparation loop is the
target directory path of each index of the range, in order. -/
theorem foldl_create_acc (cfg : SplitConfig) :
    ∀ (l : List Nat) (st : List FsPath) (acc : List FsPath),
      (l.foldl
          (fun a i => (createDirAll a.1 (targetDirPath cfg i), a.2 ++ [targetDirPath cfg i]))
          (st, acc)).2
        = acc ++ l.map (targetDirPath cfg) := by
  intro l
  induction l with
  | nil => intro st acc; simp
  | cons i rest ih =>
    intro st acc
    rw [List.foldl_cons, ih]
    simp

/-- Helper: the directory set after the preparation loop keeps every
directory it already had and holds every target directory of the range. -/
theorem foldl_create_state (cfg : SplitConfig) :
    ∀ (l : List Nat) (st : List FsPath) (acc : List FsPath) (p : FsPath),
      (p ∈ st ∨ p ∈ l.map (targetDirPath cfg)) →
      p ∈ (l.foldl
          (fun a i => (createDirAll a.1 (targetDirPath cfg i), a.2 ++ [targetDirPath cfg i]))
          (st, acc)).1 := by
  intro l
  induction l with
  | nil =>
    intro st acc p hp
    rcases hp with h | h
    · simpa using h
    · simp at h
  | cons i rest ih =>
    intro st acc p hp
    rw [List.foldl_cons]
    apply ih
    rcases hp with h | h
    · left
      unfold createDirAll
      split_ifs <;> simp [h]
    · rw [List.map_cons] at h
      rcases List.mem_cons.mp h with rfl | h2
      · left
        unfold createDirAll
        split_ifs with hin
        · exact hin
        · exact List.mem_cons_self _ _
      · right
        exact h2

/-- Helper: the created_dirs vector of prepareTargets is the list of target
directory paths in index order. -/
theorem prepareTargets_created (cfg : SplitConfig) (dirs : List FsPath) :
    (prepareTargets cfg dirs).2 = (List.range cfg.num_dirs).map (targetDirPath cfg) := by
  have := foldl_create_acc cfg (List.range cfg.num_dirs) dirs []
  simpa [prepareTargets] using this

/-- C3: a split configured with zero target directories does not fail fast:
with an empty group table it returns the successful outcome, an empty created
list and an unchanged directory set, and with one nonempty group it panics on
indexing the empty created_dirs vector; in neither case is an error returned
before directory work starts. -/
theorem split_num_dirs_zero_eval :
    (split (SplitConfig.new ["data"] 0) [] []).1 = .ok [] [] ∧
    (split (SplitConfig.new ["data"] 0) [] []).2 = [] ∧
    (split (SplitConfig.new ["data"] 0) [[["data", "a.txt"]]] []).1
      = .panicIndexOutOfBounds := by
  decide

/-- C10, counterexample: every member path of the single group has a file
name, yet the distribution phase panics, because with zero target directories
the indexing of created_dirs fails; the claimed precondition alone does not
rule out a panic of the Distribute phase. -/
theorem distribute_panic_counterexample :
    (∀ g ∈ [[(["data", "a.txt"] : FsPath)]], ∀ f ∈ g, (fileName f).isSome) ∧
    (split (SplitConfig.new ["data"] 0) [[["data", "a.txt"]]] []).1
      = .panicIndexOutOfBounds := by
  decide

/-- Helper: whatever the configuration, the distribution loop never reaches
the file-name unwrap panic when every member of every group has a file
name. -/
theorem distributeGroups_no_filename_panic (created : List FsPath) (k : Nat) :
    ∀ (groups : List (List FsPath)) (cur : Nat),
      (∀ g ∈ groups, ∀ f ∈ g, (fileName f).isSome) →
      distributeGroups created k groups cur ≠ .panicNoFileName := by
  intro groups
  induction groups with
  | nil =>
    intro cur _
    rw [distributeGroups]
    intro h
    exact SplitOutcome.noConfusion h
  | cons g rest ih =>
    intro cur hf
    rw [distributeGroups]
    cases hget : created.get? cur with
    | none =>
      intro h
      exact SplitOutcome.noConfusion h
    | some target =>
      have hco := copyGroup_eq target g (hf g (List.mem_cons_self g rest))
      cases hrec : distributeGroups created k rest ((cur + 1) % k) with
      | ok c more => simp [hco, hrec]
      | panicIndexOutOfBounds => simp [hco, hrec]
      | panicNoFileName =>
        exact absurd hrec
          (ih ((cur + 1) % k) (fun g2 hg2 => hf g2 (List.mem_cons_of_mem g hg2)))

/-- C10, amended: when every member path of the table has an extractable file
name, the file-name extraction before each copy cannot panic, whatever the
configuration; and when additionally at least one target directory is
configured, the Distribute phase panics in no way at all and the split
succeeds. With zero target directories an indexing panic remains reachable,
as the counterexample shows. -/
theorem split_no_panic (cfg : SplitConfig) (groups : List (List FsPath))
    (dirs : List FsPath) (hf : ∀ g ∈ groups, ∀ f ∈ g, (fileName f).isSome) :
    (split cfg groups dirs).1 ≠ .panicNoFileName ∧
    (0 < cfg.num_dirs → ∃ created copies, (split cfg groups dirs).1 = .ok created copies) := by
  constructor
  · exact distributeGroups_no_filename_panic (prepareTargets cfg dirs).2 cfg.num_dirs groups 0 hf
  · intro hk
    have hlen : (prepareTargets cfg dirs).2.length = cfg.num_dirs := by
      rw [prepareTargets_created]
      simp
    exact ⟨(prepareTargets cfg dirs).2,
      roundRobinAssignment (prepareTargets cfg dirs).2 cfg.num_dirs groups 0,
      distributeGroups_ok _ _ hk hlen groups 0 hk hf⟩

/-- C10, witness for the amended theorem: one group of one file under a
configuration with two target directories. -/
theorem split_no_panic_witness :
    (split (SplitConfig.new ["data"] 2) [[["data", "a.txt"]]] []).1 ≠ .panicNoFileName ∧
    (0 < (SplitConfig.new ["data"] 2).num_dirs →
      ∃ created copies,
        (split (SplitConfig.new ["data"] 2) [[["data", "a.txt"]]] []).1
          = .ok created copies) :=
  split_no_panic (SplitConfig.new ["data"] 2) [[["data", "a.txt"]]] [] (by decide)

end Xio

namespace Xio

/-- C6: with at least one target directory and a file name available for
every member, split succeeds with exactly num_dirs created directories; the
copies performed are the round-robin assignment starting at directory index
zero, every member of the group at table position j is copied into the
created directory at index j modulo num_dirs, and for every directory index
the number of groups assigned to it is the floor or the ceiling of the group
count over num_dirs. -/
theorem split_round_robin (cfg : SplitConfig) (groups : List (List FsPath))
    (dirs : List FsPath) (hk : 0 < cfg.num_dirs)
    (hf : ∀ g ∈ groups, ∀ f ∈ g, (fileName f).isSome) :
    ∃ created copies, (split cfg groups dirs).1 = .ok created copies ∧
      created.length = cfg.num_dirs ∧
      copies = roundRobinAssignment created cfg.num_dirs groups 0 ∧
      (∀ j, j < groups.length → ∀ f ∈ groups.getD j [],
        (f, created.getD (j % cfg.num_dirs) [] ++ [(fileName f).getD ""]) ∈ copies) ∧
      (∀ i, i < cfg.num_dirs →
        (List.range groups.length).countP (fun j => j % cfg.num_dirs == i)
            = groups.length / cfg.num_dirs ∨
        (List.range groups.length).countP (fun j => j % cfg.num_dirs == i)
            = (groups.length + cfg.num_dirs - 1) / cfg.num_dirs) := by
  have hlen : (prepareTargets cfg dirs).2.length = cfg.num_dirs := by
    rw [prepareTargets_created]
    simp
  refine ⟨(prepareTargets cfg dirs).2,
    roundRobinAssignment (prepareTargets cfg dirs).2 cfg.num_dirs groups 0,
    ?_, hlen, rfl, ?_, ?_⟩
  · exact distributeGroups_ok _ _ hk hlen groups 0 hk hf
  · intro j hj f hfj
    have hmem := roundRobinAssignment_mem (prepareTargets cfg dirs).2 cfg.num_dirs hk
      groups 0 hk j hj f hfj
    simpa using hmem
  · intro i hi
    exact balance_floor_ceil cfg.num_dirs hk groups.length i hi

/-- C6, witness: three singleton groups into two target directories under the
default configuration. -/
theorem split_round_robin_witness :
    ∃ created copies,
      (split (SplitConfig.new ["data"] 2)
          [[["data", "a.txt"]], [["data", "b.txt"]], [["data", "c.txt"]]] []).1
        = .ok created copies ∧
      created.length = (SplitConfig.new ["data"] 2).num_dirs ∧
      copies = roundRobinAssignment created (SplitConfig.new ["data"] 2).num_dirs
          [[["data", "a.txt"]], [["data", "b.txt"]], [["data", "c.txt"]]] 0 ∧
      (∀ j, j < ([[["data", "a.txt"]], [["data", "b.txt"]], [["data", "c.txt"]]]
          : List (List FsPath)).length →
        ∀ f ∈ ([[["data", "a.txt"]], [["data", "b.txt"]], [["data", "c.txt"]]]
            : List (List FsPath)).getD j [],
          (f, created.getD (j % (SplitConfig.new ["data"] 2).num_dirs) []
              ++ [(fileName f).getD ""]) ∈ copies) ∧
      (∀ i, i < (SplitConfig.new ["data"] 2).num_dirs →
        (List.range ([[["data", "a.txt"]], [["data", "b.txt"]], [["data", "c.txt"]]]
            : List (List FsPath)).length).countP
              (fun j => j % (SplitConfig.new ["data"] 2).num_dirs == i)
            = ([[["data", "a.txt"]], [["data", "b.txt"]], [["data", "c.txt"]]]
                : List (List FsPath)).length / (SplitConfig.new ["data"] 2).num_dirs ∨
        (List.range ([[["data", "a.txt"]], [["data", "b.txt"]], [["data", "c.txt"]]]
            : List (List FsPath)).length).countP
              (fun j => j % (SplitConfig.new ["data"] 2).num_dirs == i)
            = (([[["data", "a.txt"]], [["data", "b.txt"]], [["data", "c.txt"]]]
                : List (List FsPath)).length + (SplitConfig.new ["data"] 2).num_dirs - 1)
              / (SplitConfig.new ["data"] 2).num_dirs) :=
  split_round_robin (SplitConfig.new ["data"] 2)
    [[["data", "a.txt"]], [["data", "b.txt"]], [["data", "c.txt"]]] []
    (by decide) (by decide)

/-- C8: with at least one target directory and file names for every member,
split succeeds whatever directories already exist, returning the created
directory paths in creation order with index zero first, each being the
output root, which defaults to the source directory, joined with the prefix
template holding the substituted decimal index followed by the suffix
template; afterwards every target directory is present in the directory set,
creation having been idempotent. -/
theorem split_creates_targets (cfg : SplitConfig) (groups : List (List FsPath))
    (dirs : List FsPath) (hk : 0 < cfg.num_dirs)
    (hf : ∀ g ∈ groups, ∀ f ∈ g, (fileName f).isSome) :
    (∃ copies, (split cfg groups dirs).1
        = .ok ((List.range cfg.num_dirs).map (fun i =>
            cfg.output_dir.getD cfg.source_dir
              ++ [String.mk (replacePlaceholder (toString i).data cfg.prefix_format.data)
                  ++ cfg.suffix_format])) copies) ∧
    (∀ i, i < cfg.num_dirs → targetDirPath cfg i ∈ (split cfg groups dirs).2) := by
  have hcreated := prepareTargets_created cfg dirs
  have hlen : (prepareTargets cfg dirs).2.length = cfg.num_dirs := by
    rw [hcreated]
    simp
  constructor
  · refine ⟨roundRobinAssignment (prepareTargets cfg dirs).2 cfg.num_dirs groups 0, ?_⟩
    have hok := distributeGroups_ok _ _ hk hlen groups 0 hk hf
    show distributeGroups (prepareTargets cfg dirs).2 cfg.num_dirs groups 0 = _
    rw [hok, hcreated]
    rfl
  · intro i hi
    show targetDirPath cfg i ∈ (prepareTargets cfg dirs).1
    have hstate := foldl_create_state cfg (List.range cfg.num_dirs) dirs []
      (targetDirPath cfg i)
      (Or.inr (List.mem_map_of_mem _ (List.mem_range.mpr hi)))
    simpa [prepareTargets] using hstate

/-- C8, witness: the default configuration with two target directories, no
groups and an initially empty directory set. -/
theorem split_creates_targets_witness :
    (∃ copies, (split (SplitConfig.new ["data"] 2) [] []).1
        = .ok ((List.range (SplitConfig.new ["data"] 2).num_dirs).map (fun i =>
            (SplitConfig.new ["data"] 2).output_dir.getD (SplitConfig.new ["data"] 2).source_dir
              ++ [String.mk (replacePlaceholder (toString i).data
                    (SplitConfig.new ["data"] 2).prefix_format.data)
                  ++ (SplitConfig.new ["data"] 2).suffix_format])) copies) ∧
    (∀ i, i < (SplitConfig.new ["data"] 2).num_dirs →
      targetDirPath (SplitConfig.new ["data"] 2) i
        ∈ (split (SplitConfig.new ["data"] 2) [] []).2) :=
  split_creates_targets (SplitConfig.new ["data"] 2) [] [] (by decide)
    (fun g hg => absurd hg (List.not_mem_nil g))

end Xio

namespace Xio

/-- Helper: a successful cleanup only removes directories, so its final state
is contained in the initial one. -/
theorem cleanup_result_subset :
    ∀ (dirsL : List FsPath) (st st2 : List FsPath),
      cleanup dirsL st = .ok st2 → ∀ p ∈ st2, p ∈ st := by
  intro dirsL
  induction dirsL with
  | nil =>
    intro st st2 h p hp
    rw [cleanup] at h
    injection h with h2
    subst h2
    exact hp
  | cons d rest ih =>
    intro st st2 h p hp
    rw [cleanup] at h
    cases hrm : removeDirAll st d with
    | error e =>
      rw [hrm] at h
      simp at h
    | ok stm =>
      rw [hrm] at h
      have hpm := ih stm st2 h p hp
      unfold removeDirAll at hrm
      split_ifs at hrm with hin
      injection hrm with h2
      subst h2
      exact List.mem_of_mem_filter hpm

/-- Helper: after a successful cleanup, no path below any listed directory,
the directory itself included, survives in the final state. -/
theorem cleanup_removes :
    ∀ (dirsL : List FsPath) (st st2 : List FsPath), cleanup dirsL st = .ok st2 →
      ∀ d ∈ dirsL, ∀ p ∈ st2, List.isPrefixOf d p = false := by
  intro dirsL
  induction dirsL with
  | nil =>
    intro st st2 h d hd
    simp at hd
  | cons d0 rest ih =>
    intro st st2 h d hd p hp
    rw [cleanup] at h
    cases hrm : removeDirAll st d0 with
    | error e =>
      rw [hrm] at h
      simp at h
    | ok stm =>
      rw [hrm] at h
      rcases List.mem_cons.mp hd with rfl | hd2
      · have hpm := cleanup_result_subset rest stm st2 h p hp
        unfold removeDirAll at hrm
        split_ifs at hrm with hin
        injection hrm with h2
        subst h2
        have hfl := (List.mem_filter.mp hpm).2
        simpa using hfl
      · exact ih stm st2 h d hd2 p hp

/-- C7: a cleanup that returns successfully has removed every listed
directory recursively, nothing at or below a listed directory remaining in
the final state. -/
theorem cleanup_error_first :
    ∀ (dirsL : List FsPath) (st : List FsPath) (e : CleanupError),
      cleanup dirsL st = .error e →
      ∃ i stm, i < dirsL.length ∧ cleanup (dirsL.take i) st = .ok stm ∧
        dirsL.getD i [] ∉ stm ∧ e = .notFound (dirsL.getD i []) := by
  intro dirsL
  induction dirsL with
  | nil =>
    intro st e h
    rw [cleanup] at h
    simp at h
  | cons d rest ih =>
    intro st e h
    rw [cleanup] at h
    cases hrm : removeDirAll st d with
    | error e2 =>
      rw [hrm] at h
      have he2 : e2 = e := by simpa using h
      subst he2
      unfold removeDirAll at hrm
      split_ifs at hrm with hin
      injection hrm with h2
      refine ⟨0, st, by simp, rfl, by simpa using hin, by simp [h2]⟩
    | ok stm0 =>
      rw [hrm] at h
      obtain ⟨i, stm, hlen, hok, hmiss, he⟩ := ih stm0 e h
      refine ⟨i + 1, stm, by simpa using Nat.succ_lt_succ hlen, ?_,
        by simpa using hmiss, by simpa using he⟩
      rw [List.take_succ_cons, cleanup, hrm]
      exact hok

/-- Helper: when the directory at position i of the list is absent from the
state that cleaning the directories before it reaches, the whole cleanup
returns an error rather than succeeding. -/
theorem cleanup_error_exists :
    ∀ (dirsL : List FsPath) (st : List FsPath) (i : Nat) (stm : List FsPath),
      i < dirsL.length → cleanup (dirsL.take i) st = .ok stm →
      dirsL.getD i [] ∉ stm → ∃ e, cleanup dirsL st = .error e := by
  intro dirsL
  induction dirsL with
  | nil =>
    intro st i stm hi
    simp at hi
  | cons d rest ih =>
    intro st i stm hi hok hmiss
    cases i with
    | zero =>
      rw [List.take_zero, cleanup] at hok
      injection hok with h2
      subst h2
      refine ⟨.notFound d, ?_⟩
      rw [cleanup, removeDirAll, if_neg (by simpa using hmiss)]
    | succ i2 =>
      rw [List.take_succ_cons, cleanup] at hok
      cases hrm : removeDirAll st d with
      | error e2 =>
        rw [hrm] at hok
        simp at hok
      | ok stm0 =>
        rw [hrm] at hok
        obtain ⟨e, he⟩ := ih stm0 i2 stm (by simpa using Nat.lt_of_succ_lt_succ hi) hok
          (by simpa using hmiss)
        refine ⟨e, ?_⟩
        rw [cleanup, hrm]
        exact he

/-- C7: a cleanup that returns successfully has removed every listed
directory recursively, nothing at or below a listed directory remaining in
the final state; every error it returns is the not-found failure of the
first directory, in list order, whose removal fails, all removals before it
having succeeded; whenever the removal of the directory at any position
fails, because the directory is absent from the state reached by cleaning
the directories before it, the cleanup returns an error rather than
succeeding silently; and in particular a cleanup whose first directory no
longer exists fails with the not-found error for that directory. -/
theorem cleanup_spec (dirsL : List FsPath) (st : List FsPath) :
    (∀ st2, cleanup dirsL st = .ok st2 →
      ∀ d ∈ dirsL, ∀ p ∈ st2, List.isPrefixOf d p = false) ∧
    (∀ e, cleanup dirsL st = .error e →
      ∃ i stm, i < dirsL.length ∧ cleanup (dirsL.take i) st = .ok stm ∧
        dirsL.getD i [] ∉ stm ∧ e = .notFound (dirsL.getD i [])) ∧
    (∀ i stm, i < dirsL.length → cleanup (dirsL.take i) st = .ok stm →
      dirsL.getD i [] ∉ stm → ∃ e, cleanup dirsL st = .error e) ∧
    (∀ d rest, dirsL = d :: rest → d ∉ st →
      cleanup dirsL st = .error (.notFound d)) := by
  refine ⟨?_, ?_, ?_, ?_⟩
  · intro st2 h
    exact cleanup_removes dirsL st st2 h
  · intro e h
    exact cleanup_error_first dirsL st e h
  · intro i stm hi hok hmiss
    exact cleanup_error_exists dirsL st i stm hi hok hmiss
  · rintro d rest rfl hd
    rw [cleanup, removeDirAll, if_neg hd]

/-- C7, witness: removing one created directory leaves nothing under it;
with two listed directories of which only the first exists, the first
removal succeeds and the cleanup surfaces the not-found failure of the
second, exercising a failure at a later position; and cleaning an already
removed directory fails with its not-found error. -/
theorem cleanup_spec_witness :
    (∀ d ∈ ([[ "out", "part_0" ]] : List FsPath), ∀ p ∈ ([] : List FsPath),
      List.isPrefixOf d p = false) ∧
    (∃ i stm, i < ([["out", "part_0"], ["out", "part_1"]] : List FsPath).length ∧
      cleanup (([["out", "part_0"], ["out", "part_1"]] : List FsPath).take i)
          [["out", "part_0"]] = .ok stm ∧
      ([["out", "part_0"], ["out", "part_1"]] : List FsPath).getD i [] ∉ stm ∧
      CleanupError.notFound ["out", "part_1"]
        = .notFound (([["out", "part_0"], ["out", "part_1"]] : List FsPath).getD i [])) ∧
    (∃ e, cleanup [["out", "part_0"], ["out", "part_1"]] [["out", "part_0"]] = .error e) ∧
    cleanup [["gone"]] [] = .error (.notFound ["gone"]) :=
  ⟨(cleanup_spec [["out", "part_0"]] [["out", "part_0"]]).1 [] rfl,
   (cleanup_spec [["out", "part_0"], ["out", "part_1"]] [["out", "part_0"]]).2.1
     (.notFound ["out", "part_1"]) rfl,
   (cleanup_spec [["out", "part_0"], ["out", "part_1"]] [["out", "part_0"]]).2.2.1
     1 [] (by decide) rfl (by decide),
   (cleanup_spec [["gone"]] []).2.2.2 ["gone"] [] rfl (by decide)⟩

end Xio
